import Mathlib

/-!
Shallow embedding of the UVM toolchain (assembler `src/assembler.py` and
interpreter `src/interpreter.py`): the instruction encoding, the machine
state, and the fetch-decode-execute loop, together with theorems checking
the design document's claims about them.

Python machine values are modelled as `Nat` (unsigned bytes and dwords) and
`Int` (Python integers on the operand stack); `int.to_bytes` failures and
raised `RuntimeError`s become explicit error values.
-/

deriving instance DecidableEq for Except

namespace UVM

/-! ### Assembler: `src/assembler.py` -/

/-- `Opcode` enum: the four UVM operation codes. -/
inductive Opcode where
  | LOAD_CONST
  | READ_MEM
  | WRITE_MEM
  | SGN
deriving DecidableEq

/-- The numeric value of each opcode (`Opcode.value` in the source). -/
def Opcode.value : Opcode → Nat
  | .LOAD_CONST => 74
  | .READ_MEM => 135
  | .WRITE_MEM => 213
  | .SGN => 154

/-- `Instruction` dataclass: opcode, optional operand, source line number. -/
structure Instruction where
  opcode : Opcode
  operand : Option Int := none
  line_number : Nat := 0
deriving DecidableEq

/-- The `ValueError`/`OverflowError` cases `Instruction.to_binary` can raise:
a missing operand, an offset above the 6-bit range, or an operand that
`int.to_bytes` cannot represent (negative or too wide). -/
inductive AsmError where
  | missingOperand (line : Nat)
  | operandOutOfRange (line : Nat) (operand : Int)
  | operandOverflow (line : Nat)
deriving DecidableEq

/-- Little-endian byte list of `n`, `k` bytes long (`int.to_bytes(k, 'little')`
after its range check has passed). -/
def leBytes (n : Nat) : Nat → List Nat
  | 0 => []
  | k + 1 => n % 256 :: leBytes (n / 256) k

/-- Python `int.to_bytes(k, 'little')`: defined only for `0 ≤ v < 256 ^ k`,
otherwise it raises `OverflowError`. -/
def intToBytes (v : Int) (k : Nat) : Option (List Nat) :=
  if 0 ≤ v ∧ v < (256 : Int) ^ k then some (leBytes v.toNat k) else none

/-- `Instruction.to_binary`: the byte encoding of one instruction, or the
error the Python method raises. -/
def Instruction.to_binary (i : Instruction) : Except AsmError (List Nat) :=
  match i.opcode with
  | .LOAD_CONST =>
    match i.operand with
    | none => .error (.missingOperand i.line_number)
    | some v =>
      match intToBytes v 4 with
      | none => .error (.operandOverflow i.line_number)
      | some bs => .ok (74 :: bs)
  | .READ_MEM =>
    match i.operand with
    | none => .error (.missingOperand i.line_number)
    | some v =>
      if 63 < v then .error (.operandOutOfRange i.line_number v)
      else
        match intToBytes v 1 with
        | none => .error (.operandOverflow i.line_number)
        | some bs => .ok (135 :: bs)
  | .WRITE_MEM =>
    match i.operand with
    | none => .error (.missingOperand i.line_number)
    | some v =>
      match intToBytes v 4 with
      | none => .error (.operandOverflow i.line_number)
      | some bs => .ok (213 :: bs)
  | .SGN => .ok [154]

/-- `Instruction.get_size`: instruction size in bytes, a pure function of
the opcode. -/
def Instruction.get_size (i : Instruction) : Nat :=
  match i.opcode with
  | .LOAD_CONST => 5
  | .READ_MEM => 2
  | .WRITE_MEM => 5
  | .SGN => 1

theorem leBytes_length (n k : Nat) : (leBytes n k).length = k := by
  induction k generalizing n with
  | zero => rfl
  | succ k ih => simp [leBytes, ih]

theorem leBytes_four (n : Nat) :
    leBytes n 4 = [n % 256, n / 256 % 256, n / 256 / 256 % 256, n / 256 / 256 / 256 % 256] := by
  simp [leBytes]

/-! ### Interpreter: `src/interpreter.py`

`UVMInterpreter` state. The operand stack holds Python integers (`Int`:
`SGN` pushes `-1`); code and data memory hold bytes. The Python object
mutates in place until a `RuntimeError` is raised, so the step function
returns the state at the moment of the raise alongside the error. -/

structure VMState where
  code_memory : List Nat
  data_memory : List Nat
  stack : List Int
  ip : Nat
deriving DecidableEq

/-- The `RuntimeError`s `UVMInterpreter` raises, with exactly the data each
message interpolates: the truncation and stack-underflow messages carry
nothing, the invalid-address messages carry the offending data address, and
the unknown-opcode message carries the opcode and the instruction's start
offset (`at IP=...`). -/
inductive VMError where
  | truncatedByte
  | truncatedDword
  | stackUnderflow
  | readInvalidAddress (addr : Int)
  | writeInvalidAddress (addr : Nat)
  | sgnInvalidAddress (addr : Int)
  | unknownOpcode (opcode : Nat) (ip : Nat)
deriving DecidableEq

/-- `read_byte_from_code`: next byte of code memory, advancing `ip`. -/
def read_byte_from_code (s : VMState) : Except (VMError × VMState) (Nat × VMState) :=
  if s.code_memory.length ≤ s.ip then .error (.truncatedByte, s)
  else .ok (s.code_memory.getD s.ip 0, { s with ip := s.ip + 1 })

/-- `read_dword_from_code`: 4-byte little-endian value (`struct.unpack <I`),
advancing `ip` by 4. -/
def read_dword_from_code (s : VMState) : Except (VMError × VMState) (Nat × VMState) :=
  if s.code_memory.length < s.ip + 4 then .error (.truncatedDword, s)
  else
    .ok (s.code_memory.getD s.ip 0 + 256 * s.code_memory.getD (s.ip + 1) 0 +
          65536 * s.code_memory.getD (s.ip + 2) 0 + 16777216 * s.code_memory.getD (s.ip + 3) 0,
        { s with ip := s.ip + 4 })

/-- `pop`: raises stack underflow on an empty stack. -/
def VMState.pop (s : VMState) : Except (VMError × VMState) (Int × VMState) :=
  match s.stack with
  | [] => .error (.stackUnderflow, s)
  | v :: rest => .ok (v, { s with stack := rest })

/-- `push`. -/
def VMState.push (s : VMState) (v : Int) : VMState :=
  { s with stack := v :: s.stack }

/-- `struct.unpack('<b', ...)`: one byte reinterpreted as a signed 8-bit
two's-complement value. -/
def signedByte (b : Nat) : Int :=
  if b < 128 then (b : Int) else (b : Int) - 256

/-- The `if/elif/else` on the sign of the reinterpreted byte in the `SGN`
branch (lines 113–118 of the source). -/
def sgnOfByte (b : Nat) : Int :=
  if 0 < signedByte b then 1 else if signedByte b < 0 then -1 else 0

/-- One iteration of the `execute` loop body: fetch one opcode at `ip` and
run it. `offset_byte & 0x3F` is written `% 64` (the low 6 bits) and
`value & 0xFF` is written `% 256` on the mathematical integers, matching
Python's bitwise-and on nonnegative results. -/
def step (s : VMState) : Except (VMError × VMState) VMState :=
  let start_ip := s.ip
  match read_byte_from_code s with
  | .error es => .error es
  | .ok (opcode, s1) =>
    if opcode = 74 then -- LOAD_CONST
      match read_dword_from_code s1 with
      | .error es => .error es
      | .ok (constant, s2) => .ok (s2.push constant)
    else if opcode = 135 then -- READ_MEM
      match read_byte_from_code s1 with
      | .error es => .error es
      | .ok (offset_byte, s2) =>
        let offset := offset_byte % 64
        match s2.pop with
        | .error es => .error es
        | .ok (base_addr, s3) =>
          let addr : Int := base_addr + offset
          if 0 ≤ addr ∧ addr < s3.data_memory.length then
            .ok (s3.push (s3.data_memory.getD addr.toNat 0))
          else .error (.readInvalidAddress addr, s3)
    else if opcode = 213 then -- WRITE_MEM
      match read_dword_from_code s1 with
      | .error es => .error es
      | .ok (addr, s2) =>
        match s2.pop with
        | .error es => .error es
        | .ok (v, s3) =>
          let value := (v % 256).toNat
          if addr < s3.data_memory.length then
            .ok { s3 with data_memory := s3.data_memory.set addr value }
          else .error (.writeInvalidAddress addr, s3)
    else if opcode = 154 then -- SGN
      match s1.pop with
      | .error es => .error es
      | .ok (addr, s2) =>
        if 0 ≤ addr ∧ addr < s2.data_memory.length then
          let byte_val := s2.data_memory.getD addr.toNat 0
          let signed_val := signedByte byte_val
          let result : Int := if 0 < signed_val then 1 else if signed_val < 0 then -1 else 0
          .ok (s2.push result)
        else .error (.sgnInvalidAddress addr, s2)
    else .error (.unknownOpcode opcode start_ip, s1)

/-- The `while self.ip < self.program_size` loop, fuel-indexed so that it
computes; on an abort the error is paired with the machine state at the
raise and the cycle count. Each successful step advances `ip` by at least
one byte, so `code_memory.length` fuel always suffices (see `execute`). -/
def execLoop : Nat → VMState → Nat → Except (VMError × VMState × Nat) (VMState × Nat)
  | 0, s, count => .ok (s, count)
  | fuel + 1, s, count =>
    if s.ip < s.code_memory.length then
      match step s with
      | .error (e, s') => .error (e, s', count + 1)
      | .ok s' => execLoop fuel s' (count + 1)
    else .ok (s, count)

/-- `UVMInterpreter.execute`: run from the current state to halt or first
error, returning the final state and the number of executed instructions. -/
def execute (s : VMState) : Except (VMError × VMState × Nat) (VMState × Nat) :=
  execLoop s.code_memory.length s 0

/-- `UVMInterpreter(data_memory_size)` followed by `load_program(code)`:
zeroed data memory, empty stack, `ip = 0`. -/
def initState (code : List Nat) (data_memory_size : Nat) : VMState :=
  { code_memory := code
    data_memory := List.replicate data_memory_size 0
    stack := []
    ip := 0 }

/-- Size of each instruction in the binary stream, by opcode byte;
`none` for an illegal opcode. -/
def sizeOfOpcode (op : Nat) : Option Nat :=
  if op = 74 then some 5
  else if op = 135 then some 2
  else if op = 213 then some 5
  else if op = 154 then some 1
  else none

/-- Walk the code stream from offset `i`, counting instructions; `none` if
an illegal opcode is hit, an operand is truncated, or the walk does not
land exactly on the end of the stream. Fuel-indexed so that it computes. -/
def countLoop : Nat → List Nat → Nat → Option Nat
  | 0, _, _ => none
  | fuel + 1, code, i =>
    if i < code.length then
      match sizeOfOpcode (code.getD i 0) with
      | none => none
      | some sz =>
        if i + sz ≤ code.length then (countLoop fuel code (i + sz)).map (· + 1) else none
    else if i = code.length then some 0 else none

/-- Number of instructions of a well-formed binary program from offset `i`
(`none` when the program is not well-formed from there). -/
def countFrom (code : List Nat) (i : Nat) : Option Nat :=
  countLoop (code.length + 1 - i) code i

/-! ### Helper lemmas -/

theorem intToBytes_length {v : Int} {k : Nat} {bs : List Nat}
    (h : intToBytes v k = some bs) : bs.length = k := by
  simp only [intToBytes] at h
  split at h
  · cases h; exact leBytes_length _ _
  · cases h

/-! ### Claims about the encoder -/

/-- C1: each of the four instruction forms encodes to exactly the ISA byte
layout: `load v` is opcode byte 74 followed by `v` as a 4-byte little-endian
unsigned value (`load 468` gives `[0x4A, 0xD4, 0x01, 0x00, 0x00]`),
`read off` is opcode byte 135 followed by the one offset byte, `write a` is
opcode byte 213 followed by `a` as 4-byte little-endian, and `sgn` is the
single byte 154. -/
theorem C1_encoding_layout :
    (∀ (v : Int) (ln : Nat), 0 ≤ v → v < 4294967296 →
      Instruction.to_binary ⟨.LOAD_CONST, some v, ln⟩ =
        .ok [74, v.toNat % 256, v.toNat / 256 % 256, v.toNat / 256 / 256 % 256,
              v.toNat / 256 / 256 / 256 % 256]) ∧
    Instruction.to_binary ⟨.LOAD_CONST, some 468, 0⟩ = .ok [0x4A, 0xD4, 0x01, 0x00, 0x00] ∧
    (∀ (off : Int) (ln : Nat), 0 ≤ off → off ≤ 63 →
      Instruction.to_binary ⟨.READ_MEM, some off, ln⟩ = .ok [135, off.toNat]) ∧
    (∀ (a : Int) (ln : Nat), 0 ≤ a → a < 4294967296 →
      Instruction.to_binary ⟨.WRITE_MEM, some a, ln⟩ =
        .ok [213, a.toNat % 256, a.toNat / 256 % 256, a.toNat / 256 / 256 % 256,
              a.toNat / 256 / 256 / 256 % 256]) ∧
    (∀ (op : Option Int) (ln : Nat), Instruction.to_binary ⟨.SGN, op, ln⟩ = .ok [154]) := by
  have h256 : (256 : Int) ^ 4 = 4294967296 := by norm_num
  refine ⟨?_, by decide, ?_, ?_, fun op ln => rfl⟩
  · intro v ln h0 h1
    simp only [Instruction.to_binary, intToBytes]
    rw [if_pos ⟨h0, by omega⟩, leBytes_four]
  · intro off ln h0 h63
    simp only [Instruction.to_binary, intToBytes]
    rw [if_neg (by omega)]
    have : (256 : Int) ^ 1 = 256 := by norm_num
    rw [if_pos ⟨h0, by omega⟩]
    simp only [leBytes]
    rw [Nat.mod_eq_of_lt (by omega)]
  · intro a ln h0 h1
    simp only [Instruction.to_binary, intToBytes]
    rw [if_pos ⟨h0, by omega⟩, leBytes_four]

theorem C1_encoding_layout_witness :
    Instruction.to_binary ⟨.WRITE_MEM, some 224, 3⟩ = .ok [0xD5, 0xE0, 0x00, 0x00, 0x00] := by
  have h := C1_encoding_layout.2.2.2.1 224 3 (by decide) (by decide)
  simpa using h

/-- C5: encoding a `read` instruction fails with `OperandOutOfRange` exactly
when the offset exceeds 63: offset 64 fails with that error, offset 63
succeeds with operand byte `0x3F`. (A negative offset also fails, but with
the `OverflowError` from `int.to_bytes`, not with `OperandOutOfRange`.) -/
theorem C5_read_range :
    (∀ (v : Int) (ln : Nat),
      Instruction.to_binary ⟨.READ_MEM, some v, ln⟩ = .error (.operandOutOfRange ln v) ↔
        63 < v) ∧
    Instruction.to_binary ⟨.READ_MEM, some 64, 7⟩ = .error (.operandOutOfRange 7 64) ∧
    Instruction.to_binary ⟨.READ_MEM, some 63, 7⟩ = .ok [135, 0x3F] := by
  refine ⟨?_, by decide, by decide⟩
  intro v ln
  rcases lt_or_le 63 v with hgt | hle
  · simp only [Instruction.to_binary]
    rw [if_pos hgt]
    simp [hgt]
  · simp only [Instruction.to_binary]
    rw [if_neg (not_lt.mpr hle)]
    cases h' : intToBytes v 1 <;> simp [h'] <;> omega

theorem C5_read_range_witness :
    Instruction.to_binary ⟨.READ_MEM, some 64, 5⟩ = .error (.operandOutOfRange 5 64) :=
  (C5_read_range.1 64 5).mpr (by decide)

/-- C7: for every instruction whose encoding succeeds, the length of the
byte string produced by `to_binary` equals `get_size`: 5 for load, 2 for
read, 5 for write, 1 for sgn. -/
theorem C7_size_invariant (i : Instruction) (bs : List Nat)
    (h : i.to_binary = .ok bs) : bs.length = i.get_size := by
  rcases i with ⟨op, operand, ln⟩
  cases op with
  | LOAD_CONST =>
    cases operand with
    | none => exact Except.noConfusion h
    | some v =>
      simp only [Instruction.to_binary] at h
      cases h' : intToBytes v 4 with
      | none => rw [h'] at h; exact Except.noConfusion h
      | some bs' =>
        rw [h'] at h
        cases h
        simp [Instruction.get_size, intToBytes_length h']
  | READ_MEM =>
    cases operand with
    | none => exact Except.noConfusion h
    | some v =>
      simp only [Instruction.to_binary] at h
      split at h
      · exact Except.noConfusion h
      · cases h' : intToBytes v 1 with
        | none => rw [h'] at h; exact Except.noConfusion h
        | some bs' =>
          rw [h'] at h
          cases h
          simp [Instruction.get_size, intToBytes_length h']
  | WRITE_MEM =>
    cases operand with
    | none => exact Except.noConfusion h
    | some v =>
      simp only [Instruction.to_binary] at h
      cases h' : intToBytes v 4 with
      | none => rw [h'] at h; exact Except.noConfusion h
      | some bs' =>
        rw [h'] at h
        cases h
        simp [Instruction.get_size, intToBytes_length h']
  | SGN =>
    cases h
    rfl

theorem C7_size_invariant_witness :
    ([74, 212, 1, 0, 0] : List Nat).length = Instruction.get_size ⟨.LOAD_CONST, some 468, 0⟩ :=
  C7_size_invariant ⟨.LOAD_CONST, some 468, 0⟩ [74, 212, 1, 0, 0] (by decide)

/-! ### Claims about the interpreter -/

/-- C2: executing `READ_MEM` on a non-empty stack pops one value `base`,
computes `address = base + (offset_byte % 64)` (the low 6 bits of the raw
operand byte), fails with the invalid-address error when the address is
outside `[0, data_memory_size)`, and otherwise pushes the byte stored at
that address as an unsigned value in `0–255`. -/
theorem C2_read_mem_semantics (s : VMState) (b : Nat) (base : Int) (rest : List Int)
    (hop : s.code_memory.getD s.ip 0 = 135)
    (hip : s.ip + 1 < s.code_memory.length)
    (hb : s.code_memory.getD (s.ip + 1) 0 = b)
    (hstack : s.stack = base :: rest)
    (hbytes : ∀ x ∈ s.data_memory, x < 256) :
    (¬ (0 ≤ base + ((b % 64 : Nat) : Int) ∧
        base + ((b % 64 : Nat) : Int) < s.data_memory.length) →
      step s = .error (.readInvalidAddress (base + ((b % 64 : Nat) : Int)),
        { s with stack := rest, ip := s.ip + 2 })) ∧
    ((0 ≤ base + ((b % 64 : Nat) : Int) ∧
        base + ((b % 64 : Nat) : Int) < s.data_memory.length) →
      step s = .ok { s with
          stack :=
            ((s.data_memory.getD (base + ((b % 64 : Nat) : Int)).toNat 0 : Nat) : Int) :: rest,
          ip := s.ip + 2 } ∧
      s.data_memory.getD (base + ((b % 64 : Nat) : Int)).toNat 0 < 256) := by
  obtain ⟨code, data, stk, ip⟩ := s
  simp only at hop hip hb hstack hbytes ⊢
  subst hstack hb
  have h1 : ¬ (code.length ≤ ip) := by omega
  have h2 : ¬ (code.length ≤ ip + 1) := by omega
  have hstep : step ⟨code, data, base :: rest, ip⟩ =
      if 0 ≤ base + ((code.getD (ip + 1) 0 % 64 : Nat) : Int) ∧
          base + ((code.getD (ip + 1) 0 % 64 : Nat) : Int) < data.length then
        .ok ⟨code, data,
          ((data.getD (base + ((code.getD (ip + 1) 0 % 64 : Nat) : Int)).toNat 0 : Nat) : Int)
            :: rest, ip + 2⟩
      else
        .error (.readInvalidAddress (base + ((code.getD (ip + 1) 0 % 64 : Nat) : Int)),
          ⟨code, data, rest, ip + 2⟩) := by
    simp only [step, read_byte_from_code, VMState.pop, VMState.push, if_neg h1, if_neg h2, hop]
    norm_num
  constructor
  · intro hbad
    rw [hstep, if_neg hbad]
  · intro hgood
    refine ⟨by rw [hstep, if_pos hgood], ?_⟩
    have hlt : (base + ((code.getD (ip + 1) 0 % 64 : Nat) : Int)).toNat < data.length := by
      omega
    rw [List.getD_eq_getElem data 0 hlt]
    exact hbytes _ (List.getElem_mem hlt)

theorem C2_read_mem_semantics_witness :
    step ⟨[74, 0, 0, 0, 0, 135, 5], (List.replicate 8 (0 : Nat)).set 5 200, [0], 5⟩ =
      .ok ⟨[74, 0, 0, 0, 0, 135, 5], (List.replicate 8 (0 : Nat)).set 5 200, [200], 7⟩ ∧
    execute ⟨[74, 0, 0, 0, 0, 135, 5], (List.replicate 8 (0 : Nat)).set 5 200, [], 0⟩ =
      .ok (⟨[74, 0, 0, 0, 0, 135, 5], (List.replicate 8 (0 : Nat)).set 5 200, [200], 7⟩, 2) := by
  constructor
  · have h := (C2_read_mem_semantics
      ⟨[74, 0, 0, 0, 0, 135, 5], (List.replicate 8 (0 : Nat)).set 5 200, [0], 5⟩
      5 0 [] (by decide) (by decide) (by decide) rfl (by decide)).2 (by decide)
    exact h.1.trans (by decide)
  · decide

/-- C3: executing `WRITE_MEM` on a non-empty stack with an in-range operand
address pops one value and stores `value % 256` at the address taken from
the instruction's own 32-bit operand (not from the stack), leaving the rest
of the stack intact. -/
theorem C3_write_mem_semantics (s : VMState) (b0 b1 b2 b3 : Nat) (v : Int) (rest : List Int)
    (hop : s.code_memory.getD s.ip 0 = 213)
    (hfit : s.ip + 5 ≤ s.code_memory.length)
    (hb0 : s.code_memory.getD (s.ip + 1) 0 = b0)
    (hb1 : s.code_memory.getD (s.ip + 2) 0 = b1)
    (hb2 : s.code_memory.getD (s.ip + 3) 0 = b2)
    (hb3 : s.code_memory.getD (s.ip + 4) 0 = b3)
    (hstack : s.stack = v :: rest)
    (haddr : b0 + 256 * b1 + 65536 * b2 + 16777216 * b3 < s.data_memory.length) :
    step s = .ok { s with
        data_memory := s.data_memory.set (b0 + 256 * b1 + 65536 * b2 + 16777216 * b3)
          ((v % 256).toNat),
        stack := rest,
        ip := s.ip + 5 } := by
  obtain ⟨code, data, stk, ip⟩ := s
  simp only at hop hfit hb0 hb1 hb2 hb3 hstack haddr ⊢
  subst hstack hb0 hb1 hb2 hb3
  have h1 : ¬ (code.length ≤ ip) := by omega
  have h2 : ¬ (code.length < ip + 1 + 4) := by omega
  have hstep : step ⟨code, data, v :: rest, ip⟩ =
      if code.getD (ip + 1) 0 + 256 * code.getD (ip + 2) 0 + 65536 * code.getD (ip + 3) 0 +
          16777216 * code.getD (ip + 4) 0 < data.length then
        .ok ⟨code,
          data.set (code.getD (ip + 1) 0 + 256 * code.getD (ip + 2) 0 +
            65536 * code.getD (ip + 3) 0 + 16777216 * code.getD (ip + 4) 0) ((v % 256).toNat),
          rest, ip + 5⟩
      else
        .error (.writeInvalidAddress (code.getD (ip + 1) 0 + 256 * code.getD (ip + 2) 0 +
            65536 * code.getD (ip + 3) 0 + 16777216 * code.getD (ip + 4) 0),
          ⟨code, data, rest, ip + 5⟩) := by
    simp only [step, read_byte_from_code, read_dword_from_code, VMState.pop,
      if_neg h1, if_neg h2, hop]
    norm_num
  rw [hstep, if_pos haddr]

theorem C3_write_mem_semantics_witness :
    step ⟨[74, 100, 0, 0, 0, 74, 42, 0, 0, 0, 213, 100, 0, 0, 0],
        List.replicate 101 (0 : Nat), [42, 100], 10⟩ =
      .ok ⟨[74, 100, 0, 0, 0, 74, 42, 0, 0, 0, 213, 100, 0, 0, 0],
        (List.replicate 101 (0 : Nat)).set 100 42, [100], 15⟩ ∧
    execute ⟨[74, 100, 0, 0, 0, 74, 42, 0, 0, 0, 213, 100, 0, 0, 0],
        List.replicate 101 (0 : Nat), [], 0⟩ =
      .ok (⟨[74, 100, 0, 0, 0, 74, 42, 0, 0, 0, 213, 100, 0, 0, 0],
        (List.replicate 101 (0 : Nat)).set 100 42, [100], 15⟩, 3) := by
  constructor
  · have h := C3_write_mem_semantics
      ⟨[74, 100, 0, 0, 0, 74, 42, 0, 0, 0, 213, 100, 0, 0, 0],
        List.replicate 101 (0 : Nat), [42, 100], 10⟩
      100 0 0 0 42 [100] (by decide) (by decide) (by decide) (by decide) (by decide)
      (by decide) rfl (by decide)
    exact h.trans (by decide)
  · decide

/-- C4: executing `SGN` on a non-empty stack pops one value as an address,
fails with the invalid-address error when it is outside
`[0, data_memory_size)`, and otherwise reads the byte at that address,
reinterprets it as a signed 8-bit two's-complement value, and pushes `+1`
for positive, `-1` for negative, `0` for zero — so stored bytes `128–255`
(negative as signed bytes) yield `-1`. -/
theorem C4_sgn_semantics (s : VMState) (a : Int) (rest : List Int)
    (hop : s.code_memory.getD s.ip 0 = 154)
    (hip : s.ip < s.code_memory.length)
    (hstack : s.stack = a :: rest) :
    (¬ (0 ≤ a ∧ a < s.data_memory.length) →
      step s = .error (.sgnInvalidAddress a, { s with stack := rest, ip := s.ip + 1 })) ∧
    ((0 ≤ a ∧ a < s.data_memory.length) →
      step s = .ok { s with
          stack := sgnOfByte (s.data_memory.getD a.toNat 0) :: rest,
          ip := s.ip + 1 }) ∧
    (∀ b : Nat, b < 256 →
      (sgnOfByte b = 1 ↔ 1 ≤ b ∧ b < 128) ∧
      (sgnOfByte b = -1 ↔ 128 ≤ b) ∧
      (sgnOfByte b = 0 ↔ b = 0)) := by
  obtain ⟨code, data, stk, ip⟩ := s
  simp only at hop hip hstack ⊢
  subst hstack
  have h1 : ¬ (code.length ≤ ip) := by omega
  refine ⟨?_, ?_, ?_⟩
  · intro hbad
    simp only [step, read_byte_from_code, VMState.pop, VMState.push, if_neg h1, hop]
    norm_num [if_neg hbad, sgnOfByte]
  · intro hgood
    simp only [step, read_byte_from_code, VMState.pop, VMState.push, if_neg h1, hop]
    norm_num [if_pos hgood, sgnOfByte]
  · intro b hb
    unfold sgnOfByte signedByte
    split_ifs <;>
      refine ⟨⟨fun h => ?_, fun h => ?_⟩, ⟨fun h => ?_, fun h => ?_⟩,
        fun h => ?_, fun h => ?_⟩ <;>
      first
        | omega
        | exact h.elim

theorem C4_sgn_semantics_witness :
    step ⟨[154], [200], [0], 0⟩ = .ok ⟨[154], [200], [-1], 1⟩ ∧
    sgnOfByte 200 = -1 := by
  constructor
  · have h := (C4_sgn_semantics ⟨[154], [200], [0], 0⟩ 0 []
      (by decide) (by decide) rfl).2.1 (by decide)
    exact h.trans (by decide)
  · exact ((C4_sgn_semantics ⟨[154], [200], [0], 0⟩ 0 []
      (by decide) (by decide) rfl).2.2 200 (by decide)).2.1.mpr (by decide)

/-- C6: executing `READ_MEM`, `WRITE_MEM`, or `SGN` on an empty operand
stack fails with stack underflow; the state at the raise differs from the
starting state only in `ip`, so no byte of data memory has been written. -/
theorem C6_underflow_preserves_data (s : VMState) (hstack : s.stack = []) :
    (s.code_memory.getD s.ip 0 = 135 → s.ip + 1 < s.code_memory.length →
      step s = .error (.stackUnderflow, { s with ip := s.ip + 2 })) ∧
    (s.code_memory.getD s.ip 0 = 213 → s.ip + 5 ≤ s.code_memory.length →
      step s = .error (.stackUnderflow, { s with ip := s.ip + 5 })) ∧
    (s.code_memory.getD s.ip 0 = 154 → s.ip < s.code_memory.length →
      step s = .error (.stackUnderflow, { s with ip := s.ip + 1 })) := by
  obtain ⟨code, data, stk, ip⟩ := s
  simp only at hstack ⊢
  subst hstack
  refine ⟨?_, ?_, ?_⟩
  · intro hop hip
    have h1 : ¬ (code.length ≤ ip) := by omega
    have h2 : ¬ (code.length ≤ ip + 1) := by omega
    simp only [step, read_byte_from_code, VMState.pop, if_neg h1, if_neg h2, hop]
    norm_num
  · intro hop hfit
    have h1 : ¬ (code.length ≤ ip) := by omega
    have h2 : ¬ (code.length < ip + 1 + 4) := by omega
    simp only [step, read_byte_from_code, read_dword_from_code, VMState.pop,
      if_neg h1, if_neg h2, hop]
    norm_num
  · intro hop hip
    have h1 : ¬ (code.length ≤ ip) := by omega
    simp only [step, read_byte_from_code, VMState.pop, if_neg h1, hop]
    norm_num

theorem C6_underflow_preserves_data_witness :
    step ⟨[135, 0], [0, 0, 0, 0], [], 0⟩ =
      .error (.stackUnderflow, ⟨[135, 0], [0, 0, 0, 0], [], 2⟩) := by
  have h := (C6_underflow_preserves_data ⟨[135, 0], [0, 0, 0, 0], [], 0⟩ rfl).1
    (by decide) (by decide)
  exact h.trans (by decide)

/-- C10: when `WRITE_MEM` fails the address-bounds check on a non-empty
stack, the value has already been popped before the check: the state at the
raise has exactly one element fewer on the stack and unchanged data memory,
so the failing instruction is not atomic on this error. -/
theorem C10_write_mem_pops_before_check (s : VMState) (b0 b1 b2 b3 : Nat) (v : Int)
    (rest : List Int)
    (hop : s.code_memory.getD s.ip 0 = 213)
    (hfit : s.ip + 5 ≤ s.code_memory.length)
    (hb0 : s.code_memory.getD (s.ip + 1) 0 = b0)
    (hb1 : s.code_memory.getD (s.ip + 2) 0 = b1)
    (hb2 : s.code_memory.getD (s.ip + 3) 0 = b2)
    (hb3 : s.code_memory.getD (s.ip + 4) 0 = b3)
    (hstack : s.stack = v :: rest)
    (haddr : s.data_memory.length ≤ b0 + 256 * b1 + 65536 * b2 + 16777216 * b3) :
    step s = .error (.writeInvalidAddress (b0 + 256 * b1 + 65536 * b2 + 16777216 * b3),
      { s with stack := rest, ip := s.ip + 5 }) ∧
    rest.length + 1 = s.stack.length ∧
    ({ s with stack := rest, ip := s.ip + 5 } : VMState).data_memory = s.data_memory := by
  obtain ⟨code, data, stk, ip⟩ := s
  simp only at hop hfit hb0 hb1 hb2 hb3 hstack haddr ⊢
  subst hstack hb0 hb1 hb2 hb3
  have h1 : ¬ (code.length ≤ ip) := by omega
  have h2 : ¬ (code.length < ip + 1 + 4) := by omega
  have h3 : ¬ (code.getD (ip + 1) 0 + 256 * code.getD (ip + 2) 0 + 65536 * code.getD (ip + 3) 0 +
      16777216 * code.getD (ip + 4) 0 < data.length) := by omega
  have hstep : step ⟨code, data, v :: rest, ip⟩ =
      if code.getD (ip + 1) 0 + 256 * code.getD (ip + 2) 0 + 65536 * code.getD (ip + 3) 0 +
          16777216 * code.getD (ip + 4) 0 < data.length then
        .ok ⟨code,
          data.set (code.getD (ip + 1) 0 + 256 * code.getD (ip + 2) 0 +
            65536 * code.getD (ip + 3) 0 + 16777216 * code.getD (ip + 4) 0) ((v % 256).toNat),
          rest, ip + 5⟩
      else
        .error (.writeInvalidAddress (code.getD (ip + 1) 0 + 256 * code.getD (ip + 2) 0 +
            65536 * code.getD (ip + 3) 0 + 16777216 * code.getD (ip + 4) 0),
          ⟨code, data, rest, ip + 5⟩) := by
    simp only [step, read_byte_from_code, read_dword_from_code, VMState.pop,
      if_neg h1, if_neg h2, hop]
    norm_num
  refine ⟨by rw [hstep, if_neg h3], ?_, ?_⟩ <;> simp

/-! ### Forward progress and termination -/

theorem sizeOfOpcode_pos {op sz : Nat} (h : sizeOfOpcode op = some sz) : 1 ≤ sz := by
  unfold sizeOfOpcode at h
  split_ifs at h <;> cases h <;> omega

/-- Executing one well-formed instruction either aborts with an error, or
succeeds and advances `ip` by exactly the size of the instruction. -/
theorem step_wf (s : VMState) (sz : Nat)
    (hip : s.ip < s.code_memory.length)
    (hsz : sizeOfOpcode (s.code_memory.getD s.ip 0) = some sz)
    (hfit : s.ip + sz ≤ s.code_memory.length) :
    (∃ es, step s = .error es) ∨
    (∃ s', step s = .ok s' ∧ s'.code_memory = s.code_memory ∧ s'.ip = s.ip + sz) := by
  obtain ⟨code, data, stk, ip⟩ := s
  simp only at hip hsz hfit ⊢
  have h1 : ¬ (code.length ≤ ip) := by omega
  simp only [sizeOfOpcode] at hsz
  by_cases h74 : code.getD ip 0 = 74
  · rw [if_pos h74] at hsz
    cases hsz
    have h2 : ¬ (code.length < ip + 1 + 4) := by omega
    refine .inr ⟨⟨code, data,
      ((code.getD (ip + 1) 0 + 256 * code.getD (ip + 2) 0 + 65536 * code.getD (ip + 3) 0 +
        16777216 * code.getD (ip + 4) 0 : Nat) : Int) :: stk, ip + 5⟩, ?_, rfl, rfl⟩
    simp only [step, read_byte_from_code, read_dword_from_code, VMState.push,
      if_neg h1, if_neg h2, h74]
    norm_num
  · rw [if_neg h74] at hsz
    by_cases h135 : code.getD ip 0 = 135
    · rw [if_pos h135] at hsz
      cases hsz
      have h2 : ¬ (code.length ≤ ip + 1) := by omega
      cases stk with
      | nil =>
        refine .inl ⟨(.stackUnderflow, ⟨code, data, [], ip + 2⟩), ?_⟩
        simp only [step, read_byte_from_code, VMState.pop, if_neg h1, if_neg h2, h135]
        norm_num
      | cons base rest =>
        have hstep : step ⟨code, data, base :: rest, ip⟩ =
            if 0 ≤ base + ((code.getD (ip + 1) 0 % 64 : Nat) : Int) ∧
                base + ((code.getD (ip + 1) 0 % 64 : Nat) : Int) < data.length then
              .ok ⟨code, data,
                ((data.getD (base + ((code.getD (ip + 1) 0 % 64 : Nat) : Int)).toNat 0 : Nat) :
                  Int) :: rest, ip + 2⟩
            else
              .error (.readInvalidAddress (base + ((code.getD (ip + 1) 0 % 64 : Nat) : Int)),
                ⟨code, data, rest, ip + 2⟩) := by
          simp only [step, read_byte_from_code, VMState.pop, VMState.push,
            if_neg h1, if_neg h2, h135]
          norm_num
        by_cases haddr : 0 ≤ base + ((code.getD (ip + 1) 0 % 64 : Nat) : Int) ∧
            base + ((code.getD (ip + 1) 0 % 64 : Nat) : Int) < data.length
        · exact .inr ⟨_, by rw [hstep, if_pos haddr], rfl, rfl⟩
        · exact .inl ⟨_, by rw [hstep, if_neg haddr]⟩
    · rw [if_neg h135] at hsz
      by_cases h213 : code.getD ip 0 = 213
      · rw [if_pos h213] at hsz
        cases hsz
        have h2 : ¬ (code.length < ip + 1 + 4) := by omega
        cases stk with
        | nil =>
          refine .inl ⟨(.stackUnderflow, ⟨code, data, [], ip + 5⟩), ?_⟩
          simp only [step, read_byte_from_code, read_dword_from_code, VMState.pop,
            if_neg h1, if_neg h2, h213]
          norm_num
        | cons v rest =>
          have hstep : step ⟨code, data, v :: rest, ip⟩ =
              if code.getD (ip + 1) 0 + 256 * code.getD (ip + 2) 0 +
                  65536 * code.getD (ip + 3) 0 + 16777216 * code.getD (ip + 4) 0 <
                  data.length then
                .ok ⟨code,
                  data.set (code.getD (ip + 1) 0 + 256 * code.getD (ip + 2) 0 +
                    65536 * code.getD (ip + 3) 0 + 16777216 * code.getD (ip + 4) 0)
                    ((v % 256).toNat),
                  rest, ip + 5⟩
              else
                .error (.writeInvalidAddress (code.getD (ip + 1) 0 + 256 * code.getD (ip + 2) 0 +
                    65536 * code.getD (ip + 3) 0 + 16777216 * code.getD (ip + 4) 0),
                  ⟨code, data, rest, ip + 5⟩) := by
            simp only [step, read_byte_from_code, read_dword_from_code, VMState.pop,
              if_neg h1, if_neg h2, h213]
            norm_num
          by_cases haddr : code.getD (ip + 1) 0 + 256 * code.getD (ip + 2) 0 +
              65536 * code.getD (ip + 3) 0 + 16777216 * code.getD (ip + 4) 0 < data.length
          · exact .inr ⟨_, by rw [hstep, if_pos haddr], rfl, rfl⟩
          · exact .inl ⟨_, by rw [hstep, if_neg haddr]⟩
      · rw [if_neg h213] at hsz
        by_cases h154 : code.getD ip 0 = 154
        · rw [if_pos h154] at hsz
          cases hsz
          cases stk with
          | nil =>
            refine .inl ⟨(.stackUnderflow, ⟨code, data, [], ip + 1⟩), ?_⟩
            simp only [step, read_byte_from_code, VMState.pop, if_neg h1, h154]
            norm_num
          | cons a rest =>
            by_cases haddr : 0 ≤ a ∧ a < (data.length : Int)
            · refine .inr ⟨⟨code, data, sgnOfByte (data.getD a.toNat 0) :: rest, ip + 1⟩,
                ?_, rfl, rfl⟩
              simp only [step, read_byte_from_code, VMState.pop, VMState.push,
                if_neg h1, h154]
              norm_num [if_pos haddr, sgnOfByte]
            · refine .inl ⟨(.sgnInvalidAddress a, ⟨code, data, rest, ip + 1⟩), ?_⟩
              simp only [step, read_byte_from_code, VMState.pop, if_neg h1, h154]
              norm_num [if_neg haddr]
        · rw [if_neg h154] at hsz
          exact Option.noConfusion hsz

/-- A well-formed instruction walk from offset `i` covers at most the rest
of the code stream. -/
theorem countLoop_le (code : List Nat) :
    ∀ (cf k i : Nat), countLoop cf code i = some k → i + k ≤ code.length := by
  intro cf
  induction cf with
  | zero => intro k i h; exact Option.noConfusion h
  | succ cf ih =>
    intro k i h
    simp only [countLoop] at h
    split at h
    · cases hsz : sizeOfOpcode (code.getD i 0) with
      | none => simp only [hsz] at h; exact Option.noConfusion h
      | some sz =>
        simp only [hsz] at h
        split at h
        · rcases Option.map_eq_some'.mp h with ⟨k', hk', rfl⟩
          have hle := ih k' (i + sz) hk'
          have hpos := sizeOfOpcode_pos hsz
          omega
        · exact Option.noConfusion h
    · split at h
      · cases h; omega
      · exact Option.noConfusion h

/-- Loop invariant for `execLoop` on a well-formed remainder of the
program: with enough fuel the loop either aborts with an error within the
remaining instruction count, or halts at the end of code memory having
executed exactly the remaining instructions. -/
theorem execLoop_wf (code : List Nat) :
    ∀ (cf : Nat) (s : VMState) (k count ef : Nat),
      s.code_memory = code → countLoop cf code s.ip = some k → k ≤ ef →
      (∃ e s' c, execLoop ef s count = .error (e, s', c) ∧ count < c ∧ c ≤ count + k) ∨
      (∃ s', execLoop ef s count = .ok (s', count + k) ∧ s'.ip = code.length) := by
  intro cf
  induction cf with
  | zero => intro s k count ef hcode hcl hk; exact Option.noConfusion hcl
  | succ cf ih =>
    intro s k count ef hcode hcl hk
    simp only [countLoop] at hcl
    by_cases hip : s.ip < code.length
    · rw [if_pos hip] at hcl
      cases hsz : sizeOfOpcode (code.getD s.ip 0) with
      | none => simp only [hsz] at hcl; exact Option.noConfusion hcl
      | some sz =>
        simp only [hsz] at hcl
        split at hcl
        · rcases Option.map_eq_some'.mp hcl with ⟨k', hk', rfl⟩
          obtain ⟨ef', rfl⟩ : ∃ ef', ef = ef' + 1 := ⟨ef - 1, by omega⟩
          have hstep := step_wf s sz (by rw [hcode]; exact hip)
            (by rw [hcode]; exact hsz) (by rw [hcode]; omega)
          rcases hstep with ⟨⟨e, serr⟩, herr⟩ | ⟨s', hok, hcode', hip'⟩
          · refine .inl ⟨e, serr, count + 1, ?_, by omega, by omega⟩
            simp only [execLoop, hcode, if_pos hip, herr]
          · have hloop : execLoop (ef' + 1) s count = execLoop ef' s' (count + 1) := by
              simp only [execLoop, hcode, if_pos hip, hok]
            have hcl' : countLoop cf code s'.ip = some k' := by
              rw [hip']
              exact hk'
            rcases ih s' k' (count + 1) ef' (by rw [hcode', hcode]) hcl' (by omega) with
              ⟨e, serr, c, hrun, hlt, hle⟩ | ⟨sfin, hrun, hfin⟩
            · exact .inl ⟨e, serr, c, by rw [hloop]; exact hrun, by omega, by omega⟩
            · refine .inr ⟨sfin, ?_, hfin⟩
              have harith : count + 1 + k' = count + (k' + 1) := by omega
              rw [hloop, hrun, harith]
        · exact Option.noConfusion hcl
    · rw [if_neg hip] at hcl
      split at hcl
      · cases hcl
        refine .inr ⟨s, ?_, by omega⟩
        cases ef with
        | zero => simp [execLoop]
        | succ ef' =>
          simp only [execLoop, hcode, if_neg hip]
          simp
      · exact Option.noConfusion hcl

/-- C8 (amended): for every finite well-formed binary program the execute
loop terminates, but not necessarily in the halted state: either a runtime
error (stack underflow / invalid address) aborts it within `n` cycles, or
it reaches the halted state with `ip` equal to the program length after
exactly `n` fetch-decode-execute cycles, where `n` is the number of
instructions; every successful cycle of a well-formed instruction strictly
increases the instruction pointer. -/
theorem C8_wellformed_termination :
    (∀ (s : VMState) (sz : Nat) (s' : VMState),
      s.ip < s.code_memory.length →
      sizeOfOpcode (s.code_memory.getD s.ip 0) = some sz →
      s.ip + sz ≤ s.code_memory.length →
      step s = .ok s' → s.ip < s'.ip) ∧
    (∀ (code : List Nat) (n : Nat) (s : VMState),
      s.code_memory = code → s.ip = 0 → countFrom code 0 = some n →
      (∃ e s' c, execute s = .error (e, s', c) ∧ 1 ≤ c ∧ c ≤ n) ∨
      (∃ s', execute s = .ok (s', n) ∧ s'.ip = code.length)) := by
  constructor
  · intro s sz s' hip hsz hfit hok
    rcases step_wf s sz hip hsz hfit with ⟨es, herr⟩ | ⟨s'', hok', _, hip'⟩
    · rw [hok] at herr
      exact Except.noConfusion herr
    · rw [hok] at hok'
      cases hok'
      have := sizeOfOpcode_pos hsz
      omega
  · intro code n s hcode hip0 hcf
    have hcl : countLoop (code.length + 1) code s.ip = some n := by
      rw [hip0]
      simpa [countFrom] using hcf
    have hn : n ≤ code.length := by
      have := countLoop_le code (code.length + 1) n s.ip hcl
      omega
    have hex : execute s = execLoop code.length s 0 := by
      unfold execute
      rw [hcode]
    rcases execLoop_wf code (code.length + 1) s n 0 code.length hcode hcl hn with
      ⟨e, s', c, hrun, hlt, hle⟩ | ⟨s', hrun, hfin⟩
    · exact .inl ⟨e, s', c, by rw [hex]; exact hrun, by omega, by omega⟩
    · exact .inr ⟨s', by rw [hex]; simpa using hrun, hfin⟩

theorem C8_wellformed_termination_witness :
    ∃ s', execute (initState [74, 7, 0, 0, 0] 4) = .ok (s', 1) ∧
      s'.ip = ([74, 7, 0, 0, 0] : List Nat).length := by
  rcases C8_wellformed_termination.2 [74, 7, 0, 0, 0] 1 (initState [74, 7, 0, 0, 0] 4)
      rfl rfl (by decide) with ⟨e, s', c, hrun, hc1, hcn⟩ | h
  · rw [show execute (initState [74, 7, 0, 0, 0] 4) =
        .ok (⟨[74, 7, 0, 0, 0], [0, 0, 0, 0], [7], 5⟩, 1) by decide] at hrun
    exact Except.noConfusion hrun
  · exact h

/-- C8 counterexample: the program `[135, 0]` (`read 0`) is well-formed —
one instruction, valid opcode, operand byte present — yet executing it from
the freshly loaded initial state aborts with stack underflow instead of
terminating in the halted state after one cycle, refuting the claim that
every well-formed program halts with `ip` at the program length. -/
theorem C8_counterexample :
    ¬ (∀ (code : List Nat) (n dataSize : Nat), countFrom code 0 = some n →
        ∃ s', execute (initState code dataSize) = .ok (s', n) ∧ s'.ip = code.length) := by
  intro h
  rcases h [135, 0] 1 4 (by decide) with ⟨s', hs', _⟩
  rw [show execute (initState [135, 0] 4) =
      .error (.stackUnderflow, ⟨[135, 0], [0, 0, 0, 0], [], 2⟩, 1) by decide] at hs'
  exact Except.noConfusion hs'

/-- C9 (amended): only the illegal-opcode error carries the instruction
pointer offset at the point of failure (the opcode's own start offset);
the truncation and stack-underflow errors carry no location at all, and the
invalid-address errors carry the offending data address instead of the
instruction pointer. -/
theorem C9_illegal_opcode_offset (s : VMState)
    (hip : s.ip < s.code_memory.length)
    (hsz : sizeOfOpcode (s.code_memory.getD s.ip 0) = none) :
    step s = .error (.unknownOpcode (s.code_memory.getD s.ip 0) s.ip,
      { s with ip := s.ip + 1 }) := by
  obtain ⟨code, data, stk, ip⟩ := s
  simp only at hip hsz ⊢
  have h1 : ¬ (code.length ≤ ip) := by omega
  simp only [sizeOfOpcode] at hsz
  split_ifs at hsz with h74 h135 h213 h154
  simp only [step, read_byte_from_code,
    if_neg h1, if_neg h74, if_neg h135, if_neg h213, if_neg h154]

theorem C9_illegal_opcode_offset_witness :
    step ⟨[99], [0, 0], [], 0⟩ = .error (.unknownOpcode 99 0, ⟨[99], [0, 0], [], 1⟩) := by
  have h := C9_illegal_opcode_offset ⟨[99], [0, 0], [], 0⟩ (by decide) (by decide)
  exact h.trans (by decide)

/-- C9 counterexample: the same error value `VMError.stackUnderflow` —
which, like the Python message `"Stack underflow"`, interpolates no data at
all — is surfaced for failures of instructions starting at two different
offsets (0 in the first program, 10 in the second), so the surfaced error
does not carry the instruction pointer offset at the point of failure. -/
theorem C9_counterexample :
    execute (initState [154] 4) =
      .error (.stackUnderflow, ⟨[154], [0, 0, 0, 0], [], 1⟩, 1) ∧
    execute (initState [74, 0, 0, 0, 0, 213, 0, 0, 0, 0, 154] 4) =
      .error (.stackUnderflow,
        ⟨[74, 0, 0, 0, 0, 213, 0, 0, 0, 0, 154], [0, 0, 0, 0], [], 11⟩, 3) ∧
    (1 : Nat) ≠ 11 := by decide

theorem C10_write_mem_pops_before_check_witness :
    step ⟨[213, 10, 0, 0, 0], [0, 0], [42, 7], 0⟩ =
      .error (.writeInvalidAddress 10, ⟨[213, 10, 0, 0, 0], [0, 0], [7], 5⟩) := by
  have h := (C10_write_mem_pops_before_check ⟨[213, 10, 0, 0, 0], [0, 0], [42, 7], 0⟩
    10 0 0 0 42 [7] (by decide) (by decide) (by decide) (by decide) (by decide)
    (by decide) rfl (by decide)).1
  exact h.trans (by decide)

end UVM
